import Mathlib

/-!
Verification of the ShipItAI review core: a shallow embedding of the
diff splitter, chunk packer, line mapper, response parser/validator,
result merger and retry policy (packages `review` of the repository),
together with theorems settling the specification claims.

Go strings are modelled as Lean `String` (a wrapper around `List Char`);
`len` on a string is modelled by `String.utf8ByteSize` where the byte
count matters.  Go's `strings.Split` with a one-character separator is
modelled by the structural function `splitOnChar` below, and
`strings.HasPrefix` / `strings.TrimPrefix` by `strStarts` / `trimPre`,
so that every definition evaluates inside the kernel.
-/

namespace ShipItAI

/-! ## String primitives modelling the Go standard library -/

/-- `strings.HasPrefix s p`. -/
def strStarts (s p : String) : Bool :=
  p.data.isPrefixOf s.data

/-- `strings.TrimPrefix s p`: drops `p` from the front of `s` when present. -/
def trimPre (s p : String) : String :=
  if strStarts s p then ⟨s.data.drop p.data.length⟩ else s

/-- Auxiliary splitter: accumulates the current field until the separator. -/
def splitOnCharAux (sep : Char) : List Char → List Char → List String
  | [], acc => [⟨acc⟩]
  | c :: rest, acc =>
    if c = sep then ⟨acc⟩ :: splitOnCharAux sep rest []
    else splitOnCharAux sep rest (acc ++ [c])

/-- `strings.Split s (String.singleton sep)` for a one-character separator. -/
def splitOnChar (sep : Char) (s : String) : List String :=
  splitOnCharAux sep s.data []

/-- The lines of a string: `strings.Split s "\n"`. -/
def splitLines (s : String) : List String :=
  splitOnChar '\n' s

/-- Joins a list of strings with a single newline between consecutive
elements; the inverse of `splitLines`. -/
def joinLines : List String → String
  | [] => ""
  | s :: rest =>
    match rest with
    | [] => s
    | _ :: _ => s ++ "\n" ++ joinLines rest

/-- `strings.Contains s pat` on character lists. -/
def hasSubstr : List Char → List Char → Bool
  | _, [] => true
  | [], _ :: _ => false
  | c :: rest, p :: ps => (p :: ps).isPrefixOf (c :: rest) || hasSubstr rest (p :: ps)

/-- Decimal digits of a positive number, most significant first; the fuel
argument makes the digit-extraction loop of the source's `itoa` structural. -/
def itoaAux : Nat → Nat → List Char → List Char
  | 0, _, acc => acc
  | fuel + 1, n, acc =>
    if n = 0 then acc else itoaAux fuel (n / 10) (Char.ofNat (48 + n % 10) :: acc)

/-- Decimal representation of a natural number (the `itoa` of the source
restricted to non-negative values). -/
def natToStr (n : Nat) : String :=
  if n = 0 then "0" else ⟨itoaAux n n []⟩

/-- `itoa` of review/chunker.go: decimal representation of an integer. -/
def itoa (n : Int) : String :=
  if n < 0 then "-" ++ natToStr n.natAbs else natToStr n.natAbs

/-- `pluralize` of review/chunker.go. -/
def pluralize (n : Nat) (singular : String) : String :=
  if n = 1 then "1 " ++ singular else natToStr n ++ " " ++ singular ++ "s"

/-! ## review/chunker.go: diff splitter and chunk packer -/

/-- `FileDiff` of review/chunker.go: a single file's diff content. -/
structure FileDiff where
  Path : String
  Content : String
deriving DecidableEq, Repr

/-- `Chunk` of review/chunker.go: a group of file diffs reviewed together. -/
structure Chunk where
  Files : List FileDiff
  SizeBytes : Nat
  Index : Nat
  Total : Nat
deriving DecidableEq, Repr

/-- Path extraction from a `diff --git a/path b/path` line: the fourth
space-delimited token with its `b/` front stripped, `"unknown"` when the
line has fewer than four tokens. -/
def extractPath (line : String) : String :=
  let parts := splitOnChar ' ' line
  if 4 ≤ parts.length then trimPre (parts.getD 3 "") "b/" else "unknown"

/-- The line loop of `SplitDiffByFile`: `path` and `content` are the
current file's path and accumulated content lines, `files` the finished
segments.  A `diff --git` line flushes the current segment (when it has a
path) and starts a new one; every line, marker included, is appended to
the current content. -/
def splitLoop : List String → String → List String → List FileDiff → List FileDiff
  | [], path, content, files =>
    if path ≠ "" then files ++ [⟨path, joinLines content⟩] else files
  | line :: rest, path, content, files =>
    if strStarts line "diff --git" then
      let files' := if path ≠ "" then files ++ [⟨path, joinLines content⟩] else files
      let content' := if path ≠ "" then ([] : List String) else content
      splitLoop rest (extractPath line) (content' ++ [line]) files'
    else
      splitLoop rest path (content ++ [line]) files

/-- `SplitDiffByFile` of review/chunker.go: splits a unified diff into
per-file segments.  The Go builder accumulates each line followed by a
newline and trims the final newline, which is `joinLines` of the
accumulated lines. -/
def SplitDiffByFile (diff : String) : List FileDiff :=
  if diff = "" then [] else splitLoop (splitLines diff) "" [] []

/-- Sum of the byte lengths of the contents of a list of file diffs. -/
def sizeSum (files : List FileDiff) : Nat :=
  (files.map (fun f => f.Content.utf8ByteSize)).sum

/-- The greedy packing loop of `ChunkDiff`: `cur` is the chunk under
construction, `acc` the finished chunks. -/
def chunkLoop (maxChunkSize : Nat) : List FileDiff → Chunk → List Chunk → List Chunk
  | [], cur, acc => if cur.Files ≠ [] then acc ++ [cur] else acc
  | f :: rest, cur, acc =>
    let fileSize := f.Content.utf8ByteSize
    if maxChunkSize < fileSize then
      let acc' := if cur.Files ≠ [] then acc ++ [cur] else acc
      chunkLoop maxChunkSize rest ⟨[], 0, 0, 0⟩ (acc' ++ [⟨[f], fileSize, 0, 0⟩])
    else if maxChunkSize < cur.SizeBytes + fileSize ∧ cur.Files ≠ [] then
      chunkLoop maxChunkSize rest ⟨[f], fileSize, 0, 0⟩ (acc ++ [cur])
    else
      chunkLoop maxChunkSize rest ⟨cur.Files ++ [f], cur.SizeBytes + fileSize, 0, 0⟩ acc

/-- `ChunkDiff` of review/chunker.go: splits a diff into chunks that fit
the size limit, then assigns `Index`/`Total`. -/
def ChunkDiff (diff : String) (maxChunkSize : Nat) : List Chunk :=
  let files := SplitDiffByFile diff
  if files = [] then []
  else
    let core := chunkLoop maxChunkSize files ⟨[], 0, 0, 0⟩ []
    core.enum.map (fun p => { p.2 with Index := p.1, Total := core.length })

/-- The path assigned by the last `diff --git` line of `lines`, starting
from `path`; used to state when `SplitDiffByFile` loses no text. -/
def lastMarkerPath : List String → String → String
  | [], path => path
  | line :: rest, path =>
    lastMarkerPath rest (if strStarts line "diff --git" then extractPath line else path)

/-! ## review/parser.go data model and review/chunker.go result merger -/

/-- `ClaudeComment` of review/parser.go. -/
structure ClaudeComment where
  Path : String
  Line : Int
  Body : String
  Severity : String
deriving DecidableEq, Repr

/-- `ClaudeResponse` of review/parser.go. -/
structure ClaudeResponse where
  Summary : String
  Comments : List ClaudeComment
  Approval : String
  ResolvedThreads : List String
deriving DecidableEq, Repr

/-- `ChunkResult` of review/chunker.go; the `*ClaudeResponse` field is an
`Option` because the pointer may be nil. -/
structure ChunkResult where
  Response : Option ClaudeResponse
  Index : Int
deriving DecidableEq, Repr

/-- `MergedReview` of review/chunker.go. -/
structure MergedReview where
  Summary : String
  Comments : List ClaudeComment
  Approval : String
deriving DecidableEq, Repr

/-- The priority the Go map lookup of `mergeApproval` assigns to a value,
with the `!ok` default of 1 applied. -/
def approvalPriority (s : String) : Nat :=
  if s = "approve" then 0
  else if s = "comment" then 1
  else if s = "request_changes" then 2
  else 1

/-- `mergeApproval` of review/chunker.go: returns the stricter of two
approval values under `request_changes > comment > approve`, unknown
values weighing as `comment`. -/
def mergeApproval (a b : String) : String :=
  if approvalPriority b ≤ approvalPriority a then a else b

/-- The fold state of the result loop of `MergeChunkResponses`. -/
structure MergeState where
  summaries : List String
  fileGroupCount : Nat
  comments : List ClaudeComment
  approval : String
deriving DecidableEq, Repr

/-- One iteration of the result loop of `MergeChunkResponses`: nil results
and nil responses are skipped. -/
def mergeStep (st : MergeState) (result : Option ChunkResult) : MergeState :=
  match result with
  | none => st
  | some cr =>
    match cr.Response with
    | none => st
    | some resp =>
      { summaries := st.summaries ++ (if resp.Summary ≠ "" then [resp.Summary] else [])
        fileGroupCount := st.fileGroupCount + 1
        comments := st.comments ++ resp.Comments
        approval := mergeApproval st.approval resp.Approval }

/-- The labelled parts of the combined summary: `**Part k:** s`, with a
blank line between consecutive parts. -/
def summaryParts : Nat → List String → String
  | _, [] => ""
  | i, s :: rest =>
    "**Part " ++ natToStr (i + 1) ++ ":** " ++ s ++
      (match rest with
       | [] => ""
       | _ :: _ => "\n\n" ++ summaryParts (i + 1) rest)

/-- `MergeChunkResponses` of review/chunker.go.  The Go function also
returns an error that is always nil, which the model drops. -/
def MergeChunkResponses (results : List (Option ChunkResult)) : MergedReview :=
  if results = [] then
    { Summary := "No chunks to review.", Comments := [], Approval := "comment" }
  else
    let st := results.foldl mergeStep ⟨[], 0, [], "approve"⟩
    let summary :=
      match st.summaries with
      | [] => ""
      | [s] => s
      | _ :: _ :: _ =>
        "**Reviewed " ++ pluralize st.fileGroupCount "file group" ++ ":**\n\n" ++
          summaryParts 0 st.summaries
    { Summary := summary, Comments := st.comments, Approval := st.approval }

/-- `mapApprovalToEvent` of review/parser.go. -/
def mapApprovalToEvent (approval : String) : String :=
  if approval = "approve" then "APPROVE"
  else if approval = "request_changes" then "REQUEST_CHANGES"
  else "COMMENT"

/-- The approval strings of the non-nil responses of a result sequence, in
order; the values folded by the merge loop. -/
def approvalsOf (results : List (Option ChunkResult)) : List String :=
  results.filterMap (fun r =>
    match r with
    | none => none
    | some cr =>
      match cr.Response with
      | none => none
      | some resp => some resp.Approval)

/-- Replacement of an unrecognized approval value by `"comment"`; the
normalization the specification describes for the merge fold. -/
def normalizeApproval (s : String) : String :=
  if s = "approve" ∨ s = "comment" ∨ s = "request_changes" then s else "comment"

/-- The strictest-wins fold of the specification, with every unrecognized
per-chunk value replaced by `"comment"`. -/
def cleanApprovalFold (results : List (Option ChunkResult)) : String :=
  ((approvalsOf results).map normalizeApproval).foldl mergeApproval "approve"

/-! ## review/parser.go line mapper -/

/-- Consumes a literal from the front of a character list. -/
def chompLit : List Char → List Char → Option (List Char)
  | [], cs => some cs
  | _ :: _, [] => none
  | p :: ps, c :: cs => if c = p then chompLit ps cs else none

/-- Numeric value of a digit run (the `strconv.Atoi` of a capture group). -/
def digitsVal (ds : List Char) : Nat :=
  ds.foldl (fun a c => 10 * a + (c.toNat - 48)) 0

/-- Consumes one or more decimal digits, returning their value. -/
def chompNum (cs : List Char) : Option (Nat × List Char) :=
  let ds := cs.takeWhile Char.isDigit
  if ds = [] then none else some (digitsVal ds, cs.dropWhile Char.isDigit)

/-- Consumes the optional `,<digits>` group of the hunk header pattern.
When a comma is present but not followed by digits the whole match fails,
exactly as the anchored regular expression does. -/
def chompOptCommaNum (cs : List Char) : Option (List Char) :=
  match cs with
  | ',' :: rest => (chompNum rest).map (fun p => p.2)
  | _ => some cs

/-- `hunkHeaderRegex` of review/parser.go applied to a line: matches
`@@ -<old>[,<len>] +<new>[,<len>] @@` at the start of the line and
returns the new-file starting line (capture group 3, `strconv.Atoi`ed). -/
def hunkNewStart (line : String) : Option Nat := do
  let r1 ← chompLit "@@ -".data line.data
  let (_, r2) ← chompNum r1
  let r3 ← chompOptCommaNum r2
  let r4 ← chompLit " +".data r3
  let (n, r5) ← chompNum r4
  let r6 ← chompOptCommaNum r5
  let _ ← chompLit " @@".data r6
  pure n

/-- Right-justified space padding to width `w`: the `%5d` format verb. -/
def padLeft (s : String) (w : Nat) : String :=
  ⟨List.replicate (w - s.data.length) ' ' ++ s.data⟩

/-- The per-line loop of `AnnotateDiffWithLineNumbers`, producing the
output lines; `cur` is the new-file line cursor. -/
def annotateLoop : List String → Nat → Bool → List String
  | [], _, _ => []
  | line :: rest, cur, inHunk =>
    if strStarts line "diff --git" then
      line :: annotateLoop rest cur false
    else
      match hunkNewStart line with
      | some n => line :: annotateLoop rest n true
      | none =>
        if ¬ inHunk then
          line :: annotateLoop rest cur inHunk
        else if strStarts line "-" then
          ("      | " ++ line) :: annotateLoop rest cur inHunk
        else if strStarts line "+" then
          (padLeft (natToStr cur) 5 ++ " | " ++ line) :: annotateLoop rest (cur + 1) inHunk
        else if strStarts line "\\" then
          line :: annotateLoop rest cur inHunk
        else
          (padLeft (natToStr cur) 5 ++ " | " ++ line) :: annotateLoop rest (cur + 1) inHunk

/-- `AnnotateDiffWithLineNumbers` of review/parser.go: context and added
lines are given a `NNNN | ` new-file line number, deleted lines a blank
marker; headers and metadata pass through unchanged. -/
def AnnotateDiffWithLineNumbers (diff : String) : String :=
  joinLines (annotateLoop (splitLines diff) 0 false)

/-- The walking state of `ParseDiffLines`. -/
structure PDLState where
  file : String
  cur : Nat
  inHunk : Bool
deriving DecidableEq, Repr

/-- The body of the per-line loop of `ParseDiffLines`: the updated state
and the `(path, line)` pairs the line adds to the map.  The Go nested
map `DiffLineMap` is modelled by its set of valid `(path, line)` pairs. -/
def pdlStep (st : PDLState) (line : String) : PDLState × List (String × Nat) :=
  if strStarts line "+++ b/" then (⟨⟨line.data.drop 6⟩, st.cur, false⟩, [])
  else if strStarts line "+++ /dev/null" then (⟨"", st.cur, false⟩, [])
  else
    match hunkNewStart line with
    | some n =>
      if st.file = "" then (st, [])
      else (⟨st.file, n, true⟩, [])
    | none =>
      if ¬ st.inHunk ∨ st.file = "" then (st, [])
      else if strStarts line "-" then (st, [])
      else if strStarts line "+" then
        (⟨st.file, st.cur + 1, st.inHunk⟩, [(st.file, st.cur)])
      else if strStarts line " " ∨ line = "" then
        (⟨st.file, st.cur + 1, st.inHunk⟩, [(st.file, st.cur)])
      else if strStarts line "\\" then (st, [])
      else if strStarts line "diff --git" then (⟨st.file, st.cur, false⟩, [])
      else (st, [])

/-- The per-line loop of `ParseDiffLines`, accumulating the valid pairs
in order in `acc`. -/
def pdlLoop : List String → PDLState → List (String × Nat) → List (String × Nat)
  | [], _, acc => acc
  | line :: rest, st, acc =>
    pdlLoop rest (pdlStep st line).1 (acc ++ (pdlStep st line).2)

/-- `ParseDiffLines` of review/parser.go, as the list of valid
`(path, new-file line)` pairs of the diff. -/
def ParseDiffLines (diff : String) : List (String × Nat) :=
  pdlLoop (splitLines diff) ⟨"", 0, false⟩ []

/-- `DiffLineMap.IsValidCommentLine` of review/parser.go: membership of
the `(path, line)` pair in the map. -/
def IsValidCommentLine (m : List (String × Nat)) (path : String) (line : Nat) : Bool :=
  (path, line) ∈ m

/-! ## Line mapper state machine of the specification (section 4.3)

A second definition of the valid comment lines, transcribed from the
specification's wording rather than from the source, to be compared with
`ParseDiffLines`.  States are `OUTSIDE_HUNK`/`INSIDE_HUNK` plus the
current file and the new-file cursor; a current file of `""` is the
"none" state the specification assigns to `+++ /dev/null` sections. -/

/-- The specification's line-mapper state: current file (`""` meaning
none), whether the walk is inside a hunk, and the new-file cursor. -/
structure LMState where
  file : String
  inside : Bool
  cursor : Nat
deriving DecidableEq, Repr

/-- One transition of the specification's state machine, returning the
new state and the `(path, line)` pairs the line marks valid:
new-file markers set the file and leave the hunk; a hunk header enters a
hunk with the cursor at the new-file start; `diff --git` forces the walk
outside any hunk; inside a hunk with a file set, additions and context
lines (single-space or fully blank) are valid at the cursor which then
advances, while deletions and the no-newline marker contribute nothing. -/
def lmStep (st : LMState) (line : String) : LMState × List (String × Nat) :=
  if strStarts line "+++ b/" then (⟨⟨line.data.drop 6⟩, false, st.cursor⟩, [])
  else if strStarts line "+++ /dev/null" then (⟨"", false, st.cursor⟩, [])
  else
    match hunkNewStart line with
    | some n => (⟨st.file, true, n⟩, [])
    | none =>
      if strStarts line "diff --git" then (⟨st.file, false, st.cursor⟩, [])
      else if st.inside ∧ st.file ≠ "" then
        if strStarts line "-" then (st, [])
        else if strStarts line "\\" then (st, [])
        else if strStarts line "+" ∨ strStarts line " " ∨ line = "" then
          (⟨st.file, st.inside, st.cursor + 1⟩, [(st.file, st.cursor)])
        else (st, [])
      else (st, [])

/-- The walk of the specification's state machine over a line list. -/
def lmWalk : List String → LMState → List (String × Nat)
  | [], _ => []
  | line :: rest, st =>
    let p := lmStep st line
    p.2 ++ lmWalk rest p.1

/-- The correspondence between a `ParseDiffLines` state and a state of
the specification's machine: same current file; the code is inside a
hunk only when a file is set; and with a file set, the two machines
agree on being inside a hunk and, inside one, on the cursor.  (With no
file set the code ignores hunk headers while the specification enters
the hunk, but neither machine marks lines there.) -/
def StateRel (p : PDLState) (s : LMState) : Prop :=
  p.file = s.file ∧ (p.inHunk = true → p.file ≠ "") ∧
    (p.file ≠ "" → (p.inHunk = s.inside ∧ (p.inHunk = true → p.cur = s.cursor)))

/-- The set of commentable `(path, new-file line)` pairs of a diff
according to the specification's section 4.3 state machine. -/
def SpecCommentable (diff : String) : List (String × Nat) :=
  lmWalk (splitLines diff) ⟨"", false, 0⟩

/-! ## review/claude.go retry policy -/

/-- `MaxRetries`: retries of transient API failures. -/
def MaxRetries : Nat := 3

/-- `RetryBaseDelay` in nanoseconds: `1 * time.Second`. -/
def RetryBaseDelay : Nat := 1000000000

/-- A Go error value: either a leaf error with its message and whether it
is `context.DeadlineExceeded`, or a `fmt.Errorf("...: %w", inner)` wrap. -/
inductive GoError where
  | leaf (msg : String) (deadline : Bool)
  | wrap (pre : String) (inner : GoError)
deriving DecidableEq, Repr

/-- `err.Error()`: the message text of an error. -/
def GoError.text : GoError → String
  | .leaf m _ => m
  | .wrap p inner => p ++ inner.text

/-- `errors.Is(err, context.DeadlineExceeded)`: unwraps through wraps. -/
def GoError.isDeadline : GoError → Bool
  | .leaf _ d => d
  | .wrap _ inner => inner.isDeadline

/-- `isRetryableError` of review/claude.go: rate limits, 5xx server
errors, connection/timeout problems and deadline expiry are transient. -/
def isRetryableError (e : GoError) : Bool :=
  hasSubstr e.text.data "429".data ||
  hasSubstr e.text.data "500".data ||
  hasSubstr e.text.data "502".data ||
  hasSubstr e.text.data "503".data ||
  hasSubstr e.text.data "504".data ||
  hasSubstr e.text.data "connection".data ||
  hasSubstr e.text.data "timeout".data ||
  e.isDeadline

/-- The observable outcome of a `retryWithBackoff` run: the returned
value or error, the number of invocations of the operation, and the
sequence of back-off delays slept (in nanoseconds). -/
structure RetryOutcome (T : Type) where
  result : Except GoError T
  calls : Nat
  delays : List Nat
deriving Repr

/-- The attempt loop of `retryWithBackoff`.  `fn k` is the outcome of the
`k`-th invocation of the wrapped operation; `rem` counts the remaining
loop iterations (`MaxRetries + 1` down to 0), `attempt` the invocations
already made, and `lastErr` the last error seen. -/
def retryLoop {T : Type} (operation : String) (fn : Nat → Except GoError T) :
    Nat → Nat → List Nat → GoError → RetryOutcome T
  | 0, attempt, delays, lastErr =>
    ⟨.error (.wrap ("max retries exceeded for " ++ operation ++ ": ") lastErr),
      attempt, delays⟩
  | rem + 1, attempt, delays, _ =>
    match fn attempt with
    | .ok v => ⟨.ok v, attempt + 1, delays⟩
    | .error e =>
      if isRetryableError e = false then ⟨.error e, attempt + 1, delays⟩
      else if attempt < MaxRetries then
        retryLoop operation fn rem (attempt + 1)
          (delays ++ [RetryBaseDelay * 2 ^ attempt]) e
      else retryLoop operation fn rem (attempt + 1) delays e

/-- `retryWithBackoff` of review/claude.go, with the context never
cancelled: executes `fn` with exponential backoff on retryable errors. -/
def retryWithBackoff {T : Type} (operation : String) (fn : Nat → Except GoError T) :
    RetryOutcome T :=
  retryLoop operation fn (MaxRetries + 1) 0 [] (.leaf "" false)

/-! ## review/parser.go response parsing and validation

`encoding/json` is modelled at the JSON-tree level: `Json` is a parsed
JSON document (numbers restricted to integers, which covers every field
of the response contract), and `unmarshalClaudeResponse` mirrors
`json.Unmarshal` into the `ClaudeResponse` struct: unknown object keys
are ignored, keys are decoded in order so a repeated matching key keeps
its last value, a key matches a field name case-insensitively (Go
prefers an exact match but also accepts a case-insensitive one; with
one struct field per name both decode into the same field, so the last
matching occurrence wins; the struct's names are ASCII, and the case
folding is modelled on ASCII letters), `null` leaves the zero value in
place, an integer outside the `int64` range is an unmarshal error, and
a value of the wrong shape is an unmarshal error. -/

/-- A parsed JSON document. -/
inductive Json where
  | null
  | bool (b : Bool)
  | num (n : Int)
  | str (s : String)
  | arr (elems : List Json)
  | obj (fields : List (String × Json))

/-- ASCII case folding of one character, for `encoding/json`'s
case-insensitive field-name matching against this struct's all-ASCII
names. -/
def asciiLower (c : Char) : Char :=
  if 'A' ≤ c ∧ c ≤ 'Z' then Char.ofNat (c.toNat + 32) else c

/-- `strings.EqualFold` restricted to ASCII case differences: the key
match `encoding/json` performs against a field name. -/
def eqFold (a b : String) : Bool :=
  a.data.map asciiLower = b.data.map asciiLower

/-- Object field lookup as `json.Unmarshal` performs it for this struct:
keys are decoded in order, a key matches the field name
case-insensitively, and a later matching key overwrites an earlier one,
so the last matching occurrence wins. -/
def lookupField (fields : List (String × Json)) (key : String) : Option Json :=
  fields.foldl (fun acc p => if eqFold p.1 key then some p.2 else acc) none

/-- Unmarshals an optional field into a Go `string` (zero value `""`). -/
def decStr : Option Json → Except String String
  | none => .ok ""
  | some .null => .ok ""
  | some (.str s) => .ok s
  | some _ => .error "cannot unmarshal value into field of type string"

/-- Unmarshals an optional field into a Go `int` (zero value `0`); a
number outside the `int64` range is an unmarshal error, as for
`json.Unmarshal` into an `int` on a 64-bit platform. -/
def decInt : Option Json → Except String Int
  | none => .ok 0
  | some .null => .ok 0
  | some (.num n) =>
    if -9223372036854775808 ≤ n ∧ n ≤ 9223372036854775807 then .ok n
    else .error "cannot unmarshal number into field of type int: value out of range"
  | some _ => .error "cannot unmarshal value into field of type int"

/-- Unmarshals one element of the `comments` array. -/
def decComment : Json → Except String ClaudeComment
  | .null => .ok ⟨"", 0, "", ""⟩
  | .obj fields => do
    let path ← decStr (lookupField fields "path")
    let line ← decInt (lookupField fields "line")
    let body ← decStr (lookupField fields "body")
    let severity ← decStr (lookupField fields "severity")
    .ok ⟨path, line, body, severity⟩
  | _ => .error "cannot unmarshal value into ClaudeComment"

/-- Unmarshals the optional `comments` field (zero value nil). -/
def decComments : Option Json → Except String (List ClaudeComment)
  | none => .ok []
  | some .null => .ok []
  | some (.arr elems) => elems.mapM decComment
  | some _ => .error "cannot unmarshal value into field of type []ClaudeComment"

/-- Unmarshals the optional `resolved_threads` field. -/
def decStrList : Option Json → Except String (List String)
  | none => .ok []
  | some .null => .ok []
  | some (.arr elems) => elems.mapM (fun e => decStr (some e))
  | some _ => .error "cannot unmarshal value into field of type []string"

/-- `json.Unmarshal` of the cleaned response text into `ClaudeResponse`,
at the JSON-tree level. -/
def unmarshalClaudeResponse : Json → Except String ClaudeResponse
  | .null => .ok ⟨"", [], "", []⟩
  | .obj fields => do
    let summary ← decStr (lookupField fields "summary")
    let comments ← decComments (lookupField fields "comments")
    let approval ← decStr (lookupField fields "approval")
    let resolved ← decStrList (lookupField fields "resolved_threads")
    .ok ⟨summary, comments, approval, resolved⟩
  | _ => .error "cannot unmarshal value into ClaudeResponse"

/-- The comment loop of `validateResponse` of review/parser.go: checks
path, line and body, and validates or defaults the severity; `i` is the
index reported in error messages.  Returns the normalized comments. -/
def validateComments : List ClaudeComment → Nat → Except String (List ClaudeComment)
  | [], _ => .ok []
  | c :: rest, i =>
    if c.Path = "" then .error ("comment " ++ natToStr i ++ " has empty path")
    else if c.Line ≤ 0 then
      .error ("comment " ++ natToStr i ++ " has invalid line number: " ++ itoa c.Line)
    else if c.Body = "" then .error ("comment " ++ natToStr i ++ " has empty body")
    else if c.Severity = "critical" ∨ c.Severity = "high" ∨ c.Severity = "medium" ∨
        c.Severity = "low" then
      (validateComments rest (i + 1)).map (fun l => c :: l)
    else if c.Severity = "" then
      (validateComments rest (i + 1)).map (fun l => { c with Severity := "medium" } :: l)
    else
      .error ("comment " ++ natToStr i ++ " has invalid severity: " ++ c.Severity ++
        " (must be critical, high, medium, or low)")

/-- `validateResponse` of review/parser.go, functionally: returns the
response with the empty approval defaulted to `"comment"` and empty
severities defaulted to `"medium"`, or the first validation error. -/
def validateResponse (r : ClaudeResponse) : Except String ClaudeResponse :=
  if r.Approval = "approve" ∨ r.Approval = "request_changes" ∨ r.Approval = "comment" then
    (validateComments r.Comments 0).map (fun cs => { r with Comments := cs })
  else if r.Approval = "" then
    (validateComments r.Comments 0).map
      (fun cs => { r with Approval := "comment", Comments := cs })
  else .error ("invalid approval value: " ++ r.Approval)

/-- `ParseResponse` of review/parser.go after response cleaning and JSON
text parsing: `json.Unmarshal` (tree level) followed by
`validateResponse`, with no retry or other recovery. -/
def ParseResponseJson (j : Json) : Except String ClaudeResponse := do
  let r ← unmarshalClaudeResponse j
  validateResponse r

/-- The severity defaulting `validateResponse` applies to a comment that
passes validation. -/
def defaultSeverity (c : ClaudeComment) : ClaudeComment :=
  if c.Severity = "" then { c with Severity := "medium" } else c

/-- A comment acceptable to `validateResponse`: non-empty path and body,
positive line number, and a severity that is empty or in the allowed
severity set. -/
def commentOK (c : ClaudeComment) : Prop :=
  c.Path ≠ "" ∧ 0 < c.Line ∧ c.Body ≠ "" ∧
    (c.Severity = "" ∨ c.Severity = "critical" ∨ c.Severity = "high" ∨
      c.Severity = "medium" ∨ c.Severity = "low")

/-- An approval field acceptable to `validateResponse`: empty (to be
defaulted) or one of the three recognized values. -/
def approvalFieldOK (s : String) : Prop :=
  s = "" ∨ (s = "approve" ∨ s = "request_changes" ∨ s = "comment")

/-! ## Helper lemmas on the string model -/

theorem strMk_append (a b : List Char) : (⟨a⟩ : String) ++ ⟨b⟩ = ⟨a ++ b⟩ := rfl

theorem strAppend_assoc (a b c : String) : a ++ b ++ c = a ++ (b ++ c) := by
  cases a; cases b; cases c
  simp [strMk_append]

theorem joinLines_cons (s : String) (l : List String) (h : l ≠ []) :
    joinLines (s :: l) = s ++ "\n" ++ joinLines l := by
  cases l with
  | nil => exact absurd rfl h
  | cons x xs => rfl

theorem joinLines_append (xs ys : List String) (hx : xs ≠ []) (hy : ys ≠ []) :
    joinLines (xs ++ ys) = joinLines xs ++ "\n" ++ joinLines ys := by
  induction xs with
  | nil => exact absurd rfl hx
  | cons x xs ih =>
    cases xs with
    | nil =>
      simp only [List.singleton_append]
      rw [joinLines_cons x ys hy]
      rfl
    | cons x' xs' =>
      have h1 : x' :: xs' ++ ys ≠ [] := by simp
      rw [List.cons_append, joinLines_cons x (x' :: xs' ++ ys) h1,
        joinLines_cons x (x' :: xs') (by simp), ih (by simp)]
      simp only [strAppend_assoc]

theorem joinLines_append_pair (fs : List String) (a b : String) :
    joinLines (fs ++ [a] ++ [b]) = joinLines (fs ++ [a ++ "\n" ++ b]) := by
  induction fs with
  | nil => rfl
  | cons f fs' ih =>
    simp only [List.cons_append]
    rw [joinLines_cons f (fs' ++ [a] ++ [b]) (by simp),
      joinLines_cons f (fs' ++ [a ++ "\n" ++ b]) (by simp), ih]

theorem splitOnCharAux_ne_nil (sep : Char) (cs acc : List Char) :
    splitOnCharAux sep cs acc ≠ [] := by
  induction cs generalizing acc with
  | nil => simp [splitOnCharAux]
  | cons c rest ih =>
    by_cases h : c = sep <;> simp [splitOnCharAux, h, ih]

theorem joinLines_splitOnCharAux (cs : List Char) :
    ∀ acc : List Char, joinLines (splitOnCharAux '\n' cs acc) = ⟨acc ++ cs⟩ := by
  induction cs with
  | nil => intro acc; simp [splitOnCharAux, joinLines]
  | cons c rest ih =>
    intro acc
    by_cases h : c = '\n'
    · subst h
      rw [splitOnCharAux, if_pos rfl,
        joinLines_cons _ _ (splitOnCharAux_ne_nil _ _ _), ih []]
      rw [show ("\n" : String) = ⟨['\n']⟩ from rfl, strMk_append, strMk_append]
      simp
    · rw [splitOnCharAux, if_neg h, ih (acc ++ [c])]
      simp

/-- `joinLines` is a left inverse of `splitLines`. -/
theorem joinLines_splitLines (s : String) : joinLines (splitLines s) = s := by
  cases s with
  | mk data => rw [splitLines, splitOnChar, joinLines_splitOnCharAux]; rfl

/-! ## Theorems: diff splitter (claims C3, C10) -/

theorem splitLoop_no_marker (lines : List String) :
    ∀ content files, (∀ l ∈ lines, strStarts l "diff --git" = false) →
      splitLoop lines "" content files = files := by
  induction lines with
  | nil => intro content files _; simp [splitLoop]
  | cons line rest ih =>
    intro content files h
    rw [splitLoop]
    simp only [h line (by simp), Bool.false_eq_true, if_false]
    exact ih _ _ (fun l hl => h l (by simp [hl]))

theorem splitLoop_join (lines : List String) :
    ∀ (path : String) (content : List String) (files : List FileDiff),
      (path ≠ "" → content ≠ []) →
      lastMarkerPath lines path ≠ "" →
      joinLines ((splitLoop lines path content files).map FileDiff.Content) =
        joinLines (files.map FileDiff.Content ++ [joinLines (content ++ lines)]) := by
  induction lines with
  | nil =>
    intro path content files _ hlast
    rw [lastMarkerPath] at hlast
    rw [splitLoop, if_pos hlast]
    simp
  | cons line rest ih =>
    intro path content files hpc hlast
    rw [lastMarkerPath] at hlast
    by_cases hm : strStarts line "diff --git" = true
    · rw [splitLoop]
      simp only [hm, if_true]
      rw [if_pos hm] at hlast
      by_cases hp : path = ""
      · rw [if_neg (by simp [hp]), if_neg (by simp [hp])]
        rw [ih (extractPath line) (content ++ [line]) files (fun _ => by simp) hlast]
        simp
      · rw [if_pos hp, if_pos hp]
        simp only [List.nil_append]
        rw [ih (extractPath line) [line] (files ++ [FileDiff.mk path (joinLines content)])
          (fun _ => by simp) hlast]
        have hc : content ≠ [] := hpc hp
        simp only [List.map_append, List.map_cons, List.map_nil]
        rw [joinLines_append_pair (files.map FileDiff.Content) (joinLines content)
          (joinLines ([line] ++ rest))]
        simp only [List.singleton_append]
        rw [← joinLines_append content (line :: rest) hc (by simp)]
    · rw [splitLoop]
      simp only [hm, Bool.false_eq_true, if_false]
      rw [ih path (content ++ [line]) files (fun _ => by simp)
        (by rw [if_neg hm] at hlast; exact hlast)]
      simp

/-- C3: the round trip fails as universally stated: a non-empty input
with no `diff --git` line is discarded entirely, so concatenating the
segment contents of `"hello"` yields `""`, not `"hello"`. -/
theorem c3_split_round_trip_counterexample :
    ("hello" : String) ≠ "" ∧
      joinLines ((SplitDiffByFile "hello").map FileDiff.Content) ≠ "hello" := by
  constructor
  · decide
  · decide

/-- C3 (amended): for every diff that contains at least one line
beginning with `diff --git` and whose last such marker line yields a
non-empty path, concatenating the `Content` fields of the segments of
`SplitDiffByFile`, restoring one newline separator at each segment
boundary, reconstructs the input exactly. -/
theorem c3_split_round_trip (d : String)
    (h : lastMarkerPath (splitLines d) "" ≠ "") :
    joinLines ((SplitDiffByFile d).map FileDiff.Content) = d := by
  have hd : d ≠ "" := by
    intro he
    rw [he] at h
    exact h (by decide)
  rw [SplitDiffByFile, if_neg hd]
  rw [splitLoop_join (splitLines d) "" [] [] (fun hcon => absurd rfl hcon) h]
  simp only [List.map_nil, List.nil_append]
  rw [show joinLines [joinLines (splitLines d)] = joinLines (splitLines d) from rfl]
  exact joinLines_splitLines d

/-- C3 witness: the amended round trip evaluated on a concrete two-file
diff. -/
theorem c3_split_round_trip_witness :
    joinLines ((SplitDiffByFile "diff --git a/x.go b/x.go\n+a\ndiff --git a/y.go b/y.go\n+b").map
      FileDiff.Content) = "diff --git a/x.go b/x.go\n+a\ndiff --git a/y.go b/y.go\n+b" :=
  c3_split_round_trip "diff --git a/x.go b/x.go\n+a\ndiff --git a/y.go b/y.go\n+b" (by decide)

/-- C10: a non-empty input containing no line that begins with
`diff --git` is discarded: `SplitDiffByFile` returns the empty sequence
rather than a single `"unknown"` segment. -/
theorem c10_split_no_marker (d : String) (hne : d ≠ "")
    (h : ∀ line ∈ splitLines d, strStarts line "diff --git" = false) :
    SplitDiffByFile d = [] := by
  rw [SplitDiffByFile, if_neg hne]
  exact splitLoop_no_marker (splitLines d) [] [] h

/-- C10 witness: a concrete marker-free input. -/
theorem c10_split_no_marker_witness :
    SplitDiffByFile "hello world\n--- a/x.go\n+++ b/x.go\n+added" = [] :=
  c10_split_no_marker "hello world\n--- a/x.go\n+++ b/x.go\n+added" (by decide) (by decide)

/-! ## Theorems: chunk packer (claim C2) -/

theorem sizeSum_append_one (fs : List FileDiff) (f : FileDiff) :
    sizeSum (fs ++ [f]) = sizeSum fs + f.Content.utf8ByteSize := by
  simp [sizeSum]

/-- The chunk invariant: at least one file, `SizeBytes` is the sum of the
content byte lengths, and the chunk fits the limit unless it is a
singleton oversized file. -/
def ChunkInv (M : Nat) (c : Chunk) : Prop :=
  c.Files ≠ [] ∧ c.SizeBytes = sizeSum c.Files ∧
    (c.SizeBytes ≤ M ∨ ∃ f, c.Files = [f] ∧ M < f.Content.utf8ByteSize)

theorem chunkLoop_inv (M : Nat) (files : List FileDiff) :
    ∀ (cur : Chunk) (acc : List Chunk),
      (∀ c ∈ acc, ChunkInv M c) →
      cur.SizeBytes = sizeSum cur.Files →
      cur.SizeBytes ≤ M →
      (cur.Files = [] → cur.SizeBytes = 0) →
      ∀ c ∈ chunkLoop M files cur acc, ChunkInv M c := by
  induction files with
  | nil =>
    intro cur acc hacc hsum hle _ c hc
    rw [chunkLoop] at hc
    by_cases hne : cur.Files ≠ []
    · rw [if_pos hne] at hc
      rcases List.mem_append.mp hc with h | h
      · exact hacc c h
      · rcases List.mem_singleton.mp h with rfl
        exact ⟨hne, hsum, Or.inl hle⟩
    · rw [if_neg hne] at hc
      exact hacc c hc
  | cons f rest ih =>
    intro cur acc hacc hsum hle hempty c hc
    rw [chunkLoop] at hc
    by_cases hbig : M < f.Content.utf8ByteSize
    · rw [if_pos hbig] at hc
      refine ih ⟨[], 0, 0, 0⟩ _ ?_ rfl (Nat.zero_le M) (fun _ => rfl) c hc
      intro c' hc'
      rcases List.mem_append.mp hc' with h | h
      · by_cases hne : cur.Files ≠ []
        · rw [if_pos hne] at h
          rcases List.mem_append.mp h with h' | h'
          · exact hacc c' h'
          · rcases List.mem_singleton.mp h' with rfl
            exact ⟨hne, hsum, Or.inl hle⟩
        · rw [if_neg hne] at h
          exact hacc c' h
      · rcases List.mem_singleton.mp h with rfl
        refine ⟨by simp, by simp [sizeSum], Or.inr ⟨f, rfl, hbig⟩⟩
    · rw [if_neg hbig] at hc
      by_cases hcond : M < cur.SizeBytes + f.Content.utf8ByteSize ∧ cur.Files ≠ []
      · rw [if_pos hcond] at hc
        refine ih ⟨[f], f.Content.utf8ByteSize, 0, 0⟩ _ ?_ (by simp [sizeSum])
          (Nat.le_of_not_lt hbig) (by simp) c hc
        intro c' hc'
        rcases List.mem_append.mp hc' with h | h
        · exact hacc c' h
        · rcases List.mem_singleton.mp h with rfl
          exact ⟨hcond.2, hsum, Or.inl hle⟩
      · rw [if_neg hcond] at hc
        refine ih ⟨cur.Files ++ [f], cur.SizeBytes + f.Content.utf8ByteSize, 0, 0⟩ _
          hacc (by simp [sizeSum_append_one, hsum]) ?_ (by simp) c hc
        by_cases hnil : cur.Files = []
        · have h0 : cur.SizeBytes = 0 := hempty hnil
          simpa [h0] using Nat.le_of_not_lt hbig
        · have : ¬ M < cur.SizeBytes + f.Content.utf8ByteSize := by
            intro hlt
            exact hcond ⟨hlt, hnil⟩
          exact Nat.le_of_not_lt this

/-- C2: every chunk produced by `ChunkDiff` with a positive maximum size
has at least one file, its `SizeBytes` is the sum of its files' content
byte lengths, and it either fits the maximum or is a singleton chunk
holding one oversized file. -/
theorem c2_chunk_invariant (d : String) (M : Nat) (_hM : 0 < M) (c : Chunk)
    (hc : c ∈ ChunkDiff d M) :
    c.Files ≠ [] ∧ c.SizeBytes = sizeSum c.Files ∧
      (c.SizeBytes ≤ M ∨ ∃ f, c.Files = [f] ∧ M < f.Content.utf8ByteSize) := by
  rw [ChunkDiff] at hc
  by_cases hf : SplitDiffByFile d = []
  · rw [if_pos hf] at hc
    exact absurd hc (List.not_mem_nil c)
  · rw [if_neg hf] at hc
    rcases List.mem_map.mp hc with ⟨p, hp, rfl⟩
    have hcore : p.2 ∈ chunkLoop M (SplitDiffByFile d) ⟨[], 0, 0, 0⟩ [] := by
      rw [List.enum_eq_zip_range] at hp
      exact (List.of_mem_zip hp).2
    have hinv := chunkLoop_inv M (SplitDiffByFile d) ⟨[], 0, 0, 0⟩ []
      (fun c' hc' => absurd hc' (List.not_mem_nil c')) rfl (Nat.zero_le M)
      (fun _ => rfl) p.2 hcore
    exact hinv

/-- C2 witness: the invariant evaluated on a concrete one-file diff with
maximum chunk size 100. -/
theorem c2_chunk_invariant_witness :
    (Chunk.mk [⟨"x", "diff --git a/x b/x\n+a"⟩] 21 0 1).Files ≠ [] ∧
    (Chunk.mk [⟨"x", "diff --git a/x b/x\n+a"⟩] 21 0 1).SizeBytes =
      sizeSum (Chunk.mk [⟨"x", "diff --git a/x b/x\n+a"⟩] 21 0 1).Files ∧
    ((Chunk.mk [⟨"x", "diff --git a/x b/x\n+a"⟩] 21 0 1).SizeBytes ≤ 100 ∨
      ∃ f, (Chunk.mk [⟨"x", "diff --git a/x b/x\n+a"⟩] 21 0 1).Files = [f] ∧
        100 < f.Content.utf8ByteSize) :=
  c2_chunk_invariant "diff --git a/x b/x\n+a" 100 (by decide)
    (Chunk.mk [⟨"x", "diff --git a/x b/x\n+a"⟩] 21 0 1) (by decide)

/-! ## Theorems: result merger (claims C7, C4, C5) -/

/-- The three approval values the response contract recognizes. -/
def validApprovals : List String := ["approve", "comment", "request_changes"]

theorem approvalPriority_le_two (s : String) : approvalPriority s ≤ 2 := by
  rw [approvalPriority]
  split_ifs <;> omega

theorem approvalPriority_eq_zero (s : String) :
    approvalPriority s = 0 ↔ s = "approve" := by
  rw [approvalPriority]
  split_ifs with h1 h2 h3 <;> simp_all

theorem approvalPriority_eq_two (s : String) :
    approvalPriority s = 2 ↔ s = "request_changes" := by
  rw [approvalPriority]
  split_ifs with h1 h2 h3 <;> simp_all

theorem mergeApproval_prio (a b : String) :
    approvalPriority (mergeApproval a b) =
      max (approvalPriority a) (approvalPriority b) := by
  rw [mergeApproval]
  by_cases h : approvalPriority b ≤ approvalPriority a
  · rw [if_pos h, Nat.max_eq_left h]
  · rw [if_neg h, Nat.max_eq_right (Nat.le_of_lt (Nat.lt_of_not_le h))]

theorem mergeApproval_or (a b : String) :
    mergeApproval a b = a ∨ mergeApproval a b = b := by
  rw [mergeApproval]
  by_cases h : approvalPriority b ≤ approvalPriority a
  · exact Or.inl (if_pos h)
  · exact Or.inr (if_neg h)

theorem mergeApproval_valid {a b : String} (ha : a ∈ validApprovals)
    (hb : b ∈ validApprovals) : mergeApproval a b ∈ validApprovals := by
  rcases mergeApproval_or a b with h | h <;> rw [h] <;> assumption

theorem mergeApproval_rc_left (b : String) :
    mergeApproval "request_changes" b = "request_changes" := by
  rw [mergeApproval]
  rw [if_pos]
  rw [show approvalPriority "request_changes" = 2 from rfl]
  exact approvalPriority_le_two b

theorem mergeApproval_rc_right {a : String} (ha : a ∈ validApprovals) :
    mergeApproval a "request_changes" = "request_changes" := by
  fin_cases ha <;> rfl

theorem foldl_merge_valid (l : List String) :
    ∀ a, a ∈ validApprovals → (∀ x ∈ l, x ∈ validApprovals) →
      l.foldl mergeApproval a ∈ validApprovals := by
  induction l with
  | nil => intro a ha _; exact ha
  | cons x xs ih =>
    intro a ha hl
    exact ih (mergeApproval a x) (mergeApproval_valid ha (hl x (by simp)))
      (fun y hy => hl y (by simp [hy]))

theorem foldl_merge_rc (l : List String) :
    ∀ a, a ∈ validApprovals →
      ("request_changes" ∈ l ∨ a = "request_changes") →
      (∀ x ∈ l, x ∈ validApprovals) →
      l.foldl mergeApproval a = "request_changes" := by
  induction l with
  | nil =>
    intro a _ hin _
    rcases hin with h | h
    · exact absurd h (List.not_mem_nil _)
    · exact h
  | cons x xs ih =>
    intro a ha hin hl
    rw [List.foldl_cons]
    refine ih (mergeApproval a x) (mergeApproval_valid ha (hl x (by simp)))
      ?_ (fun y hy => hl y (by simp [hy]))
    rcases hin with h | h
    · rcases List.mem_cons.mp h with h' | h'
      · subst h'
        exact Or.inr (mergeApproval_rc_right ha)
      · exact Or.inl h'
    · subst h
      exact Or.inr (mergeApproval_rc_left x)

theorem mapApprovalToEvent_of_prio {a b : String}
    (h : approvalPriority a = approvalPriority b) :
    mapApprovalToEvent a = mapApprovalToEvent b := by
  rw [mapApprovalToEvent, mapApprovalToEvent]
  by_cases h0 : a = "approve"
  · have : approvalPriority b = 0 := by rw [← h, h0]; rfl
    rw [if_pos h0, if_pos ((approvalPriority_eq_zero b).mp this)]
  · have hb0 : ¬ b = "approve" := by
      intro hb
      refine h0 ((approvalPriority_eq_zero a).mp ?_)
      rw [h, hb]
      rfl
    rw [if_neg h0, if_neg hb0]
    by_cases h2 : a = "request_changes"
    · have : approvalPriority b = 2 := by rw [← h, h2]; rfl
      rw [if_pos h2, if_pos ((approvalPriority_eq_two b).mp this)]
    · have hb2 : ¬ b = "request_changes" := by
        intro hb
        refine h2 ((approvalPriority_eq_two a).mp ?_)
        rw [h, hb]
        rfl
      rw [if_neg h2, if_neg hb2]

theorem normalizeApproval_prio (s : String) :
    approvalPriority (normalizeApproval s) = approvalPriority s := by
  rw [normalizeApproval]
  split_ifs with h
  · rfl
  · push_neg at h
    rw [approvalPriority, approvalPriority]
    rw [if_neg h.1, if_neg h.2.1, if_neg h.2.2]
    rw [if_neg (by decide), if_pos rfl]

theorem normalizeApproval_valid (s : String) :
    normalizeApproval s ∈ validApprovals := by
  rw [normalizeApproval]
  split_ifs with h
  · rcases h with h | h | h <;> simp [validApprovals, h]
  · simp [validApprovals]

theorem foldl_mergeStep_approval (rs : List (Option ChunkResult)) :
    ∀ st : MergeState,
      (rs.foldl mergeStep st).approval =
        (approvalsOf rs).foldl mergeApproval st.approval := by
  induction rs with
  | nil => intro st; rfl
  | cons r rest ih =>
    intro st
    rcases r with _ | cr
    · rw [List.foldl_cons, show mergeStep st none = st from rfl,
        show approvalsOf (none :: rest) = approvalsOf rest from rfl, ih]
    · rcases cr with ⟨resp, idx⟩
      rcases resp with _ | resp
      · rw [List.foldl_cons, show mergeStep st (some ⟨none, idx⟩) = st from rfl,
          show approvalsOf (some ⟨none, idx⟩ :: rest) = approvalsOf rest from rfl, ih]
      · rw [List.foldl_cons, ih]
        rfl

theorem foldl_merge_prio_parallel (l : List String) :
    ∀ a b, approvalPriority a = approvalPriority b →
      approvalPriority (l.foldl mergeApproval a) =
        approvalPriority ((l.map normalizeApproval).foldl mergeApproval b) := by
  induction l with
  | nil => intro a b h; exact h
  | cons x xs ih =>
    intro a b h
    rw [List.map_cons, List.foldl_cons, List.foldl_cons]
    refine ih _ _ ?_
    rw [mergeApproval_prio, mergeApproval_prio, h, normalizeApproval_prio]

/-- C4: `mergeApproval` is associative and commutative on the valid
values and computes the maximum under `request_changes > comment >
approve`; merging `{approve, comment}` in either order, or
`{approve, comment, approve}`, through `MergeChunkResponses` yields
`comment`, and folding any collection of valid approvals containing one
`request_changes` yields `request_changes` regardless of order. -/
theorem c4_merge_approval_algebra (a b c : String) (l : List String)
    (ha : a ∈ validApprovals) (hb : b ∈ validApprovals) (hc : c ∈ validApprovals)
    (hl : ∀ x ∈ l, x ∈ validApprovals) (hrc : "request_changes" ∈ l) :
    mergeApproval (mergeApproval a b) c = mergeApproval a (mergeApproval b c) ∧
    mergeApproval a b = mergeApproval b a ∧
    approvalPriority (mergeApproval a b) =
      max (approvalPriority a) (approvalPriority b) ∧
    (mergeApproval a b = a ∨ mergeApproval a b = b) ∧
    l.foldl mergeApproval "approve" = "request_changes" ∧
    (MergeChunkResponses [some ⟨some ⟨"s1", [], "approve", []⟩, 0⟩,
      some ⟨some ⟨"s2", [], "comment", []⟩, 1⟩]).Approval = "comment" ∧
    (MergeChunkResponses [some ⟨some ⟨"s1", [], "comment", []⟩, 0⟩,
      some ⟨some ⟨"s2", [], "approve", []⟩, 1⟩]).Approval = "comment" ∧
    (MergeChunkResponses [some ⟨some ⟨"s1", [], "approve", []⟩, 0⟩,
      some ⟨some ⟨"s2", [], "comment", []⟩, 1⟩,
      some ⟨some ⟨"s3", [], "approve", []⟩, 2⟩]).Approval = "comment" := by
  refine ⟨?_, ?_, mergeApproval_prio a b, mergeApproval_or a b,
    foldl_merge_rc l "approve" (by decide) (Or.inl hrc) hl, rfl, rfl, rfl⟩
  · fin_cases ha <;> fin_cases hb <;> fin_cases hc <;> rfl
  · fin_cases ha <;> fin_cases hb <;> rfl

/-- C4 witness: the algebra evaluated at `a = "approve"`,
`b = "comment"`, `c = "request_changes"`,
`l = ["comment", "request_changes"]`. -/
theorem c4_merge_approval_algebra_witness :
    mergeApproval (mergeApproval "approve" "comment") "request_changes" =
      mergeApproval "approve" (mergeApproval "comment" "request_changes") ∧
    mergeApproval "approve" "comment" = mergeApproval "comment" "approve" ∧
    approvalPriority (mergeApproval "approve" "comment") =
      max (approvalPriority "approve") (approvalPriority "comment") ∧
    (mergeApproval "approve" "comment" = "approve" ∨
      mergeApproval "approve" "comment" = "comment") ∧
    (["comment", "request_changes"] : List String).foldl mergeApproval "approve" =
      "request_changes" ∧
    (MergeChunkResponses [some ⟨some ⟨"s1", [], "approve", []⟩, 0⟩,
      some ⟨some ⟨"s2", [], "comment", []⟩, 1⟩]).Approval = "comment" ∧
    (MergeChunkResponses [some ⟨some ⟨"s1", [], "comment", []⟩, 0⟩,
      some ⟨some ⟨"s2", [], "approve", []⟩, 1⟩]).Approval = "comment" ∧
    (MergeChunkResponses [some ⟨some ⟨"s1", [], "approve", []⟩, 0⟩,
      some ⟨some ⟨"s2", [], "comment", []⟩, 1⟩,
      some ⟨some ⟨"s3", [], "approve", []⟩, 2⟩]).Approval = "comment" :=
  c4_merge_approval_algebra "approve" "comment" "request_changes"
    ["comment", "request_changes"] (by decide) (by decide) (by decide)
    (by decide) (by decide)

/-- C5: the claim fails as stated: a single chunk result carrying the
unrecognized approval `"banana"` is merged to the literal string
`"banana"`, which is not the fold-with-replacement value `"comment"` and
not a recognized value. -/
theorem c5_merged_approval_counterexample :
    (MergeChunkResponses [some ⟨some ⟨"s", [], "banana", []⟩, 0⟩]).Approval = "banana" ∧
    "banana" ∉ validApprovals ∧
    (MergeChunkResponses [some ⟨some ⟨"s", [], "banana", []⟩, 0⟩]).Approval ≠
      cleanApprovalFold [some ⟨some ⟨"s", [], "banana", []⟩, 0⟩] := by
  refine ⟨rfl, by decide, by decide⟩

/-- C5 (amended): for every non-empty sequence of chunk results the
merged approval has the same priority, and maps to the same GitHub
review event, as the strictest-wins fold with every unrecognized value
replaced by `"comment"`; that fold value is always recognized, though
the merged string itself may be the unrecognized value. -/
theorem c5_merged_approval_priority (results : List (Option ChunkResult))
    (h : results ≠ []) :
    approvalPriority (MergeChunkResponses results).Approval =
      approvalPriority (cleanApprovalFold results) ∧
    mapApprovalToEvent (MergeChunkResponses results).Approval =
      mapApprovalToEvent (cleanApprovalFold results) ∧
    cleanApprovalFold results ∈ validApprovals := by
  have happ : (MergeChunkResponses results).Approval =
      (approvalsOf results).foldl mergeApproval "approve" := by
    rw [MergeChunkResponses, if_neg h]
    exact foldl_mergeStep_approval results ⟨[], 0, [], "approve"⟩
  have hprio : approvalPriority (MergeChunkResponses results).Approval =
      approvalPriority (cleanApprovalFold results) := by
    rw [happ, cleanApprovalFold]
    exact foldl_merge_prio_parallel (approvalsOf results) "approve" "approve" rfl
  refine ⟨hprio, mapApprovalToEvent_of_prio hprio, ?_⟩
  rw [cleanApprovalFold]
  exact foldl_merge_valid _ "approve" (by decide)
    (fun x hx => by
      rcases List.mem_map.mp hx with ⟨y, _, rfl⟩
      exact normalizeApproval_valid y)

/-- C5 witness: the amended statement evaluated on the `"banana"`
sequence. -/
theorem c5_merged_approval_priority_witness :
    approvalPriority (MergeChunkResponses
        [some ⟨some ⟨"s", [], "banana", []⟩, 0⟩]).Approval =
      approvalPriority (cleanApprovalFold [some ⟨some ⟨"s", [], "banana", []⟩, 0⟩]) ∧
    mapApprovalToEvent (MergeChunkResponses
        [some ⟨some ⟨"s", [], "banana", []⟩, 0⟩]).Approval =
      mapApprovalToEvent (cleanApprovalFold [some ⟨some ⟨"s", [], "banana", []⟩, 0⟩]) ∧
    cleanApprovalFold [some ⟨some ⟨"s", [], "banana", []⟩, 0⟩] ∈ validApprovals :=
  c5_merged_approval_priority [some ⟨some ⟨"s", [], "banana", []⟩, 0⟩] (by decide)

/-! ## Theorems: retry policy (claim C9) -/

theorem retryLoop_trace {T : Type} (op : String) (fn : Nat → Except GoError T) :
    ∀ rem attempt delays lastErr,
      rem + attempt = MaxRetries + 1 →
      delays = (List.range (min attempt MaxRetries)).map
        (fun i => RetryBaseDelay * 2 ^ i) →
      (retryLoop op fn rem attempt delays lastErr).calls ≤ MaxRetries + 1 ∧
      (retryLoop op fn rem attempt delays lastErr).delays =
        (List.range ((retryLoop op fn rem attempt delays lastErr).calls - 1)).map
          (fun i => RetryBaseDelay * 2 ^ i) := by
  intro rem
  induction rem with
  | zero =>
    intro attempt delays lastErr hsum hdel
    have ha : attempt = MaxRetries + 1 := by omega
    subst ha
    rw [retryLoop]
    refine ⟨Nat.le_refl _, ?_⟩
    rw [hdel]
    rw [show min (MaxRetries + 1) MaxRetries = MaxRetries from by omega]
    rw [show MaxRetries + 1 - 1 = MaxRetries from rfl]
  | succ rem ih =>
    intro attempt delays lastErr hsum hdel
    have hatt : attempt ≤ MaxRetries := by omega
    cases hfn : fn attempt with
    | ok v =>
      simp only [retryLoop, hfn]
      refine ⟨Nat.succ_le_succ hatt, ?_⟩
      show delays = (List.range (attempt + 1 - 1)).map (fun i => RetryBaseDelay * 2 ^ i)
      rw [hdel, show attempt + 1 - 1 = attempt from rfl,
        Nat.min_eq_left hatt]
    | error e =>
      simp only [retryLoop, hfn]
      by_cases hr : isRetryableError e = false
      · rw [if_pos hr]
        refine ⟨Nat.succ_le_succ hatt, ?_⟩
        show delays = (List.range (attempt + 1 - 1)).map (fun i => RetryBaseDelay * 2 ^ i)
        rw [hdel, show attempt + 1 - 1 = attempt from rfl,
          Nat.min_eq_left hatt]
      · rw [if_neg hr]
        by_cases hlt : attempt < MaxRetries
        · rw [if_pos hlt]
          refine ih (attempt + 1) _ e (by omega) ?_
          rw [hdel, Nat.min_eq_left hatt,
            Nat.min_eq_left (by omega : attempt + 1 ≤ MaxRetries),
            List.range_succ, List.map_append]
          rfl
        · rw [if_neg hlt]
          have ha3 : attempt = MaxRetries := by omega
          refine ih (attempt + 1) _ e (by omega) ?_
          rw [hdel, ha3]
          rw [Nat.min_self, show min (MaxRetries + 1) MaxRetries = MaxRetries from by omega]

theorem retryLoop_all_retryable {T : Type} (op : String) (fn : Nat → Except GoError T)
    (es : Nat → GoError) :
    ∀ rem attempt delays lastErr,
      rem + attempt = MaxRetries + 1 →
      (∀ k, attempt ≤ k → k ≤ MaxRetries →
        fn k = .error (es k) ∧ isRetryableError (es k) = true) →
      (rem = 0 → lastErr = es MaxRetries) →
      retryLoop op fn rem attempt delays lastErr =
        ⟨.error (.wrap ("max retries exceeded for " ++ op ++ ": ") (es MaxRetries)),
          MaxRetries + 1,
          delays ++ (List.range' attempt (MaxRetries - attempt)).map
            (fun i => RetryBaseDelay * 2 ^ i)⟩ := by
  intro rem
  induction rem with
  | zero =>
    intro attempt delays lastErr hsum hk hlast
    have ha : attempt = MaxRetries + 1 := by omega
    rw [retryLoop, hlast rfl, ha]
    rw [show MaxRetries - (MaxRetries + 1) = 0 from by omega]
    rw [show List.range' (MaxRetries + 1) 0 = [] from rfl]
    simp
  | succ rem ih =>
    intro attempt delays lastErr hsum hk hlast
    have hatt : attempt ≤ MaxRetries := by omega
    have hf := hk attempt (Nat.le_refl attempt) hatt
    simp only [retryLoop, hf.1]
    rw [if_neg (by rw [hf.2]; exact fun h => nomatch h)]
    by_cases hlt : attempt < MaxRetries
    · rw [if_pos hlt]
      rw [ih (attempt + 1) (delays ++ [RetryBaseDelay * 2 ^ attempt]) (es attempt)
        (by omega) (fun k hk1 hk2 => hk k (by omega) hk2)
        (fun h0 => by rw [show attempt = MaxRetries from by omega])]
      rw [List.append_assoc]
      rw [show MaxRetries - attempt = (MaxRetries - attempt - 1) + 1 from by omega]
      rw [List.range'_succ attempt (MaxRetries - attempt - 1) 1]
      rw [show MaxRetries - (attempt + 1) = MaxRetries - attempt - 1 from by omega]
      rfl
    · rw [if_neg hlt]
      have ha3 : attempt = MaxRetries := by omega
      rw [ih (attempt + 1) delays (es attempt) (by omega)
        (fun k hk1 hk2 => hk k (by omega) hk2) (fun _ => by rw [ha3])]
      rw [ha3]
      rw [show MaxRetries - MaxRetries = 0 from by omega,
        show MaxRetries - (MaxRetries + 1) = 0 from by omega]
      rfl

/-- C9: a non-retryable error is returned unchanged after exactly one
invocation; when every invocation fails with a retryable error the
operation is invoked `MaxRetries + 1` times with the delay doubling each
time and the result is a `max retries exceeded` error wrapping the last
transient error; and in every run the invocation count is at most
`MaxRetries + 1` with inter-attempt delays `RetryBaseDelay * 2 ^ i`. -/
theorem c9_retry_with_backoff :
    (∀ (T : Type) (op : String) (fn : Nat → Except GoError T) (e : GoError),
      fn 0 = .error e → isRetryableError e = false →
        retryWithBackoff op fn = ⟨.error e, 1, []⟩) ∧
    (∀ (T : Type) (op : String) (fn : Nat → Except GoError T) (es : Nat → GoError),
      (∀ k, k ≤ MaxRetries → fn k = .error (es k) ∧ isRetryableError (es k) = true) →
        retryWithBackoff op fn =
          ⟨.error (.wrap ("max retries exceeded for " ++ op ++ ": ") (es MaxRetries)),
            MaxRetries + 1, [1000000000, 2000000000, 4000000000]⟩) ∧
    (∀ (T : Type) (op : String) (fn : Nat → Except GoError T),
      (retryWithBackoff op fn).calls ≤ MaxRetries + 1 ∧
      (retryWithBackoff op fn).delays =
        (List.range ((retryWithBackoff op fn).calls - 1)).map
          (fun i => RetryBaseDelay * 2 ^ i)) := by
  refine ⟨?_, ?_, ?_⟩
  · intro T op fn e hfn hnr
    show retryLoop op fn (MaxRetries + 1) 0 [] (.leaf "" false) = _
    simp only [retryLoop, hfn]
    rw [if_pos hnr]
  · intro T op fn es hs
    show retryLoop op fn (MaxRetries + 1) 0 [] (.leaf "" false) = _
    rw [retryLoop_all_retryable op fn es (MaxRetries + 1) 0 [] (.leaf "" false) rfl
      (fun k _ hk2 => hs k hk2) (fun h => nomatch h)]
    rfl
  · intro T op fn
    exact retryLoop_trace op fn (MaxRetries + 1) 0 [] (.leaf "" false) rfl rfl

/-- C9 witness: the three parts evaluated on concrete operations — a
permanent parse error returned unchanged after one call, a persistent
rate-limit error exhausting all four attempts, and the trace bound for a
succeeding operation. -/
theorem c9_retry_with_backoff_witness :
    retryWithBackoff "claude_api"
        (fun _ => (.error (.leaf "invalid approval value: x" false) : Except GoError Nat)) =
      ⟨.error (.leaf "invalid approval value: x" false), 1, []⟩ ∧
    retryWithBackoff "claude_api"
        (fun _ => (.error (.leaf "HTTP 429" false) : Except GoError Nat)) =
      ⟨.error (.wrap ("max retries exceeded for " ++ "claude_api" ++ ": ")
          (.leaf "HTTP 429" false)),
        MaxRetries + 1, [1000000000, 2000000000, 4000000000]⟩ ∧
    ((retryWithBackoff "claude_api" (fun k => (.ok k : Except GoError Nat))).calls ≤
      MaxRetries + 1 ∧
    (retryWithBackoff "claude_api" (fun k => (.ok k : Except GoError Nat))).delays =
      (List.range ((retryWithBackoff "claude_api"
        (fun k => (.ok k : Except GoError Nat))).calls - 1)).map
          (fun i => RetryBaseDelay * 2 ^ i)) :=
  ⟨c9_retry_with_backoff.1 Nat "claude_api" _ (.leaf "invalid approval value: x" false)
      rfl (by decide),
    c9_retry_with_backoff.2.1 Nat "claude_api" _ (fun _ => .leaf "HTTP 429" false)
      (fun k _ => ⟨rfl, rfl⟩),
    c9_retry_with_backoff.2.2 Nat "claude_api" _⟩

/-- C7: merging zero chunk results yields the `"No chunks to review."`
sentinel with approval `"comment"`, while merging one chunk result with
zero comments can yield `"approve"`; the two defaults differ. -/
theorem c7_empty_merge_sentinel :
    MergeChunkResponses [] =
      { Summary := "No chunks to review.", Comments := [], Approval := "comment" } ∧
    (MergeChunkResponses [some ⟨some ⟨"looks good", [], "approve", []⟩, 0⟩]).Approval =
      "approve" ∧
    ("comment" : String) ≠ "approve" := by
  refine ⟨rfl, rfl, by decide⟩

/-! ## Theorems: diff annotator (claim C8) -/

/-- C8: the claim lists five consecutive line numbers `10`–`14` for the
four hunk-body lines of `@@ -10,3 +10,5 @@` with one context line, two
added lines and one context line; the code numbers those four lines
`10`–`13` and never prints `14`. -/
theorem c8_annotate_counterexample :
    AnnotateDiffWithLineNumbers "@@ -10,3 +10,5 @@\n line1\n+line2\n+line3\n line4" =
      "@@ -10,3 +10,5 @@\n   10 |  line1\n   11 | +line2\n   12 | +line3\n   13 |  line4" ∧
    hasSubstr ("@@ -10,3 +10,5 @@\n   10 |  line1\n   11 | +line2\n   12 | +line3\n   13 |  line4").data
      "   14 | ".data = false := by
  refine ⟨rfl, by decide⟩

/-- C8 (amended): annotating `@@ -10,3 +10,5 @@` followed by one context
line, two added lines and one context line prefixes those four hunk-body
lines with consecutive new-file numbers `10, 11, 12, 13`, and an
interleaved deleted line is rendered with a blank marker without
advancing the cursor. -/
theorem c8_annotate_line_numbers :
    AnnotateDiffWithLineNumbers "@@ -10,3 +10,5 @@\n line1\n+line2\n+line3\n line4" =
      "@@ -10,3 +10,5 @@\n   10 |  line1\n   11 | +line2\n   12 | +line3\n   13 |  line4" ∧
    AnnotateDiffWithLineNumbers "@@ -10,3 +10,5 @@\n line1\n+line2\n+line3\n-old\n line4" =
      "@@ -10,3 +10,5 @@\n   10 |  line1\n   11 | +line2\n   12 | +line3\n      | -old\n   13 |  line4" := by
  refine ⟨rfl, rfl⟩

/-! ## Theorems: response validation (claim C6) -/

theorem validateComments_ok_iff (cs : List ClaudeComment) :
    ∀ i, (∃ l, validateComments cs i = .ok l) ↔ ∀ c ∈ cs, commentOK c := by
  induction cs with
  | nil =>
    intro i
    constructor
    · intro _ c hc
      exact absurd hc (List.not_mem_nil c)
    · intro _
      exact ⟨[], rfl⟩
  | cons c rest ih =>
    intro i
    simp only [validateComments]
    by_cases hp : c.Path = ""
    · rw [if_pos hp]
      constructor
      · rintro ⟨l, hl⟩
        exact absurd hl (by simp)
      · intro h
        exact absurd hp (h c (by simp)).1
    · rw [if_neg hp]
      by_cases hln : c.Line ≤ 0
      · rw [if_pos hln]
        constructor
        · rintro ⟨l, hl⟩
          exact absurd hl (by simp)
        · intro h
          exact absurd (h c (by simp)).2.1 (by omega)
      · rw [if_neg hln]
        by_cases hb : c.Body = ""
        · rw [if_pos hb]
          constructor
          · rintro ⟨l, hl⟩
            exact absurd hl (by simp)
          · intro h
            exact absurd hb (h c (by simp)).2.2.1
        · rw [if_neg hb]
          by_cases hs4 : c.Severity = "critical" ∨ c.Severity = "high" ∨
              c.Severity = "medium" ∨ c.Severity = "low"
          · rw [if_pos hs4]
            constructor
            · rintro ⟨l, hl⟩
              intro c' hc'
              rcases List.mem_cons.mp hc' with rfl | hc'
              · exact ⟨hp, by omega, hb, Or.inr hs4⟩
              · refine (ih (i + 1)).mp ?_ c' hc'
                cases hvc : validateComments rest (i + 1) with
                | error e => rw [hvc] at hl; exact absurd hl (by simp [Except.map])
                | ok l' => exact ⟨l', rfl⟩
            · intro h
              obtain ⟨l', hl'⟩ := (ih (i + 1)).mpr (fun c' hc' => h c' (by simp [hc']))
              exact ⟨c :: l', by rw [hl']; rfl⟩
          · rw [if_neg hs4]
            by_cases hse : c.Severity = ""
            · rw [if_pos hse]
              constructor
              · rintro ⟨l, hl⟩
                intro c' hc'
                rcases List.mem_cons.mp hc' with rfl | hc'
                · exact ⟨hp, by omega, hb, Or.inl hse⟩
                · refine (ih (i + 1)).mp ?_ c' hc'
                  cases hvc : validateComments rest (i + 1) with
                  | error e => rw [hvc] at hl; exact absurd hl (by simp [Except.map])
                  | ok l' => exact ⟨l', rfl⟩
              · intro h
                obtain ⟨l', hl'⟩ := (ih (i + 1)).mpr (fun c' hc' => h c' (by simp [hc']))
                exact ⟨{ c with Severity := "medium" } :: l', by rw [hl']; rfl⟩
            · rw [if_neg hse]
              constructor
              · rintro ⟨l, hl⟩
                exact absurd hl (by simp)
              · intro h
                rcases (h c (by simp)).2.2.2 with h' | h'
                · exact absurd h' hse
                · exact absurd h' hs4

theorem validateComments_ok_eq (cs : List ClaudeComment) :
    ∀ i, (∀ c ∈ cs, commentOK c) →
      validateComments cs i = .ok (cs.map defaultSeverity) := by
  induction cs with
  | nil => intro i _; rfl
  | cons c rest ih =>
    intro i h
    have hc := h c (by simp)
    simp only [validateComments]
    rw [if_neg hc.1, if_neg (by have := hc.2.1; omega : ¬ c.Line ≤ 0), if_neg hc.2.2.1]
    rcases hc.2.2.2 with hse | hs4
    · rw [if_neg (by rw [hse]; decide), if_pos hse,
        ih (i + 1) (fun c' hc' => h c' (by simp [hc']))]
      simp only [List.map_cons, defaultSeverity, if_pos hse]
      rfl
    · rw [if_pos hs4, ih (i + 1) (fun c' hc' => h c' (by simp [hc']))]
      have hne : ¬ c.Severity = "" := by
        rcases hs4 with h' | h' | h' | h' <;> rw [h'] <;> decide
      simp only [List.map_cons, defaultSeverity, if_neg hne]
      rfl

theorem validateResponse_ok_iff (r0 : ClaudeResponse) :
    (∃ r, validateResponse r0 = .ok r) ↔
      (approvalFieldOK r0.Approval ∧ ∀ c ∈ r0.Comments, commentOK c) := by
  rw [validateResponse]
  by_cases hA : r0.Approval = "approve" ∨ r0.Approval = "request_changes" ∨
      r0.Approval = "comment"
  · rw [if_pos hA]
    constructor
    · rintro ⟨r, hr⟩
      refine ⟨Or.inr hA, (validateComments_ok_iff _ 0).mp ?_⟩
      cases hvc : validateComments r0.Comments 0 with
      | error e => rw [hvc] at hr; exact absurd hr (by simp [Except.map])
      | ok l => exact ⟨l, rfl⟩
    · rintro ⟨_, hcs⟩
      obtain ⟨l, hl⟩ := (validateComments_ok_iff _ 0).mpr hcs
      exact ⟨_, by rw [hl]; rfl⟩
  · by_cases hE : r0.Approval = ""
    · rw [if_neg hA, if_pos hE]
      constructor
      · rintro ⟨r, hr⟩
        refine ⟨Or.inl hE, (validateComments_ok_iff _ 0).mp ?_⟩
        cases hvc : validateComments r0.Comments 0 with
        | error e => rw [hvc] at hr; exact absurd hr (by simp [Except.map])
        | ok l => exact ⟨l, rfl⟩
      · rintro ⟨_, hcs⟩
        obtain ⟨l, hl⟩ := (validateComments_ok_iff _ 0).mpr hcs
        exact ⟨_, by rw [hl]; rfl⟩
    · rw [if_neg hA, if_neg hE]
      constructor
      · rintro ⟨r, hr⟩
        exact absurd hr (by simp)
      · rintro ⟨hok, _⟩
        rcases hok with h' | h'
        · exact absurd h' hE
        · exact absurd h' hA

theorem validateResponse_ok_eq (r0 : ClaudeResponse) (hA : approvalFieldOK r0.Approval)
    (hcs : ∀ c ∈ r0.Comments, commentOK c) :
    validateResponse r0 =
      .ok ⟨r0.Summary, r0.Comments.map defaultSeverity,
        (if r0.Approval = "" then "comment" else r0.Approval), r0.ResolvedThreads⟩ := by
  rw [validateResponse]
  rcases hA with hE | h3
  · rw [if_neg (by rw [hE]; decide), if_pos hE,
      validateComments_ok_eq _ 0 hcs, if_pos hE]
    rfl
  · have hne : ¬ r0.Approval = "" := by
      rcases h3 with h' | h' | h' <;> rw [h'] <;> decide
    rw [if_pos h3, validateComments_ok_eq _ 0 hcs, if_neg hne]
    rfl

/-- C6: `ParseResponseJson` succeeds exactly when the JSON unmarshals
into the response struct, the approval field is empty or recognized, and
every comment has a non-empty path and body, a positive line number, and
an empty or recognized severity; on success the empty approval is
replaced by `comment`, the empty severities by `medium`, and nothing
else changes. -/
theorem c6_parse_response_errors (j : Json) :
    ((∃ r, ParseResponseJson j = .ok r) ↔
      (∃ r0, unmarshalClaudeResponse j = .ok r0 ∧ approvalFieldOK r0.Approval ∧
        ∀ c ∈ r0.Comments, commentOK c)) ∧
    (∀ r0 r, unmarshalClaudeResponse j = .ok r0 → ParseResponseJson j = .ok r →
      r.Summary = r0.Summary ∧
      r.Approval = (if r0.Approval = "" then "comment" else r0.Approval) ∧
      r.Comments = r0.Comments.map defaultSeverity ∧
      r.ResolvedThreads = r0.ResolvedThreads ∧
      r.Approval ∈ validApprovals ∧
      ∀ c ∈ r.Comments, c.Severity = "critical" ∨ c.Severity = "high" ∨
        c.Severity = "medium" ∨ c.Severity = "low") := by
  constructor
  · cases h : unmarshalClaudeResponse j with
    | error e =>
      have hP : ParseResponseJson j = .error e := by
        rw [ParseResponseJson, h]
        rfl
      constructor
      · rintro ⟨r, hr⟩
        rw [hP] at hr
        exact nomatch hr
      · rintro ⟨r0, hr0, _⟩
        exact nomatch hr0
    | ok r0 =>
      have hP : ParseResponseJson j = validateResponse r0 := by
        rw [ParseResponseJson, h]
        rfl
      rw [hP]
      constructor
      · intro hex
        have hiff := (validateResponse_ok_iff r0).mp hex
        exact ⟨r0, rfl, hiff.1, hiff.2⟩
      · rintro ⟨r0', hr0', hA, hcs⟩
        have heq : r0 = r0' := Except.ok.inj hr0'
        subst heq
        exact (validateResponse_ok_iff r0).mpr ⟨hA, hcs⟩
  · intro r0 r hr0 hr
    have hP : validateResponse r0 = .ok r := by
      rw [ParseResponseJson, hr0] at hr
      exact hr
    have hiff := (validateResponse_ok_iff r0).mp ⟨r, hP⟩
    rw [validateResponse_ok_eq r0 hiff.1 hiff.2] at hP
    have hr' := Except.ok.inj hP
    subst hr'
    refine ⟨rfl, rfl, rfl, rfl, ?_, ?_⟩
    · by_cases hE : r0.Approval = ""
      · simp [hE, validApprovals]
      · rcases hiff.1 with h' | h'
        · exact absurd h' hE
        · rw [if_neg hE]
          rcases h' with h' | h' | h' <;> simp [validApprovals, h']
    · intro c hc
      rcases List.mem_map.mp hc with ⟨c', hc', rfl⟩
      have hok := hiff.2 c' hc'
      rw [defaultSeverity]
      by_cases hse : c'.Severity = ""
      · rw [if_pos hse]
        right; right; left; rfl
      · rw [if_neg hse]
        rcases hok.2.2.2 with h' | h'
        · exact absurd h' hse
        · exact h'

/-- C6 witness: a concrete response object with a missing approval and a
comment with missing severity is parsed successfully with the defaults
applied and nothing else changed. -/
theorem c6_parse_response_errors_witness :
    (ClaudeResponse.mk "ok" [⟨"a.go", 3, "b", "medium"⟩] "comment" []).Summary =
      (ClaudeResponse.mk "ok" [⟨"a.go", 3, "b", ""⟩] "" []).Summary ∧
    (ClaudeResponse.mk "ok" [⟨"a.go", 3, "b", "medium"⟩] "comment" []).Approval =
      (if (ClaudeResponse.mk "ok" [⟨"a.go", 3, "b", ""⟩] "" []).Approval = ""
        then "comment" else (ClaudeResponse.mk "ok" [⟨"a.go", 3, "b", ""⟩] "" []).Approval) ∧
    (ClaudeResponse.mk "ok" [⟨"a.go", 3, "b", "medium"⟩] "comment" []).Comments =
      (ClaudeResponse.mk "ok" [⟨"a.go", 3, "b", ""⟩] "" []).Comments.map defaultSeverity ∧
    (ClaudeResponse.mk "ok" [⟨"a.go", 3, "b", "medium"⟩] "comment" []).ResolvedThreads =
      (ClaudeResponse.mk "ok" [⟨"a.go", 3, "b", ""⟩] "" []).ResolvedThreads ∧
    (ClaudeResponse.mk "ok" [⟨"a.go", 3, "b", "medium"⟩] "comment" []).Approval ∈
      validApprovals ∧
    (∀ c ∈ (ClaudeResponse.mk "ok" [⟨"a.go", 3, "b", "medium"⟩] "comment" []).Comments,
      c.Severity = "critical" ∨ c.Severity = "high" ∨ c.Severity = "medium" ∨
        c.Severity = "low") :=
  (c6_parse_response_errors
      (Json.obj [("summary", Json.str "ok"),
        ("comments", Json.arr [Json.obj [("path", Json.str "a.go"),
          ("line", Json.num 3), ("body", Json.str "b")]])])).2
    (ClaudeResponse.mk "ok" [⟨"a.go", 3, "b", ""⟩] "" [])
    (ClaudeResponse.mk "ok" [⟨"a.go", 3, "b", "medium"⟩] "comment" []) rfl rfl

/-! ## Theorems: line mapper versus its specification (claim C1) -/

theorem neTrue {b : Bool} (h : b = false) : ¬ b = true := by
  intro ht
  rw [ht] at h
  exact nomatch h

theorem strStarts_head {s p : String} (h : strStarts s p = true) (hp : p.data ≠ []) :
    s.data.head? = p.data.head? := by
  rw [strStarts] at h
  rcases hp' : p.data with _ | ⟨c, cs⟩
  · exact absurd hp' hp
  · rw [hp'] at h
    rcases hs : s.data with _ | ⟨x, xs⟩
    · rw [hs] at h
      exact nomatch h
    · rw [hs] at h
      simp only [List.isPrefixOf, Bool.and_eq_true, beq_iff_eq] at h
      simp [h.1]

theorem strStarts_false_of_head {s q : String} (c : Char) (hs : s.data.head? = some c)
    (hq : q.data.head? ≠ some c) (hqne : q.data ≠ []) : strStarts s q = false := by
  rcases hq' : q.data with _ | ⟨d, ds⟩
  · exact absurd hq' hqne
  · rcases hs' : s.data with _ | ⟨x, xs⟩
    · rw [hs'] at hs
      exact nomatch hs
    · rw [hs'] at hs
      have hx : x = c := Option.some.inj hs
      have hd : d ≠ c := by
        intro hdc
        refine hq ?_
        rw [hq', hdc]
        rfl
      rw [strStarts, hq', hs']
      simp [List.isPrefixOf, hx, hd]

theorem strStarts_empty (q : String) (hq : q.data ≠ []) : strStarts "" q = false := by
  rcases hq' : q.data with _ | ⟨d, ds⟩
  · exact absurd hq' hq
  · rw [strStarts, hq']
    rfl

theorem stateRel_outside (f g : String) (hfg : f = g) (cp cs : Nat) :
    StateRel ⟨f, cp, false⟩ ⟨g, false, cs⟩ := by
  refine ⟨hfg, ?_, ?_⟩
  · intro hcon
    simp at hcon
  · intro _
    refine ⟨rfl, ?_⟩
    intro hcon
    simp at hcon

theorem stateRel_inside (f g : String) (hfg : f = g) (hne : f ≠ "") (c : Nat) :
    StateRel ⟨f, c, true⟩ ⟨g, true, c⟩ := by
  exact ⟨hfg, fun _ => hne, fun _ => ⟨rfl, fun _ => rfl⟩⟩

theorem pdlStep_lmStep (line : String) (p : PDLState) (s : LMState) (h : StateRel p s) :
    (pdlStep p line).2 = (lmStep s line).2 ∧
      StateRel (pdlStep p line).1 (lmStep s line).1 := by
  obtain ⟨hf, hhf, hrel⟩ := h
  unfold pdlStep lmStep
  by_cases h1 : strStarts line "+++ b/" = true
  · rw [if_pos h1, if_pos h1]
    exact ⟨rfl, stateRel_outside _ _ rfl _ _⟩
  · rw [if_neg h1, if_neg h1]
    by_cases h2 : strStarts line "+++ /dev/null" = true
    · rw [if_pos h2, if_pos h2]
      exact ⟨rfl, stateRel_outside _ _ rfl _ _⟩
    · rw [if_neg h2, if_neg h2]
      cases hh : hunkNewStart line with
      | some n =>
        dsimp only
        by_cases h3 : p.file = ""
        · rw [if_pos h3]
          exact ⟨rfl, hf, hhf, fun hne => absurd h3 hne⟩
        · rw [if_neg h3]
          exact ⟨rfl, stateRel_inside _ _ hf h3 n⟩
      | none =>
        dsimp only
        by_cases h3 : p.file = ""
        · have hs3 : s.file = "" := by rw [← hf]; exact h3
          rw [if_pos (Or.inr h3)]
          by_cases h4 : strStarts line "diff --git" = true
          · rw [if_pos h4]
            exact ⟨rfl, hf, hhf, fun hne => absurd h3 hne⟩
          · rw [if_neg h4, if_neg (fun hand => hand.2 hs3)]
            exact ⟨rfl, hf, hhf, fun hne => absurd h3 hne⟩
        · have hs3 : ¬ s.file = "" := by rw [← hf]; exact h3
          have hrel' := hrel h3
          by_cases h5 : p.inHunk = true
          · have hsin : s.inside = true := by rw [← hrel'.1]; exact h5
            have hcur : p.cur = s.cursor := hrel'.2 h5
            rw [if_neg (fun hor => hor.elim (fun hni => hni h5) (fun he => h3 he))]
            by_cases h4 : strStarts line "diff --git" = true
            · have hhead : line.data.head? = some 'd' :=
                (strStarts_head h4 (by decide)).trans (by decide)
              have hm : strStarts line "-" = false :=
                strStarts_false_of_head 'd' hhead (by decide) (by decide)
              have hp2 : strStarts line "+" = false :=
                strStarts_false_of_head 'd' hhead (by decide) (by decide)
              have hsp : strStarts line " " = false :=
                strStarts_false_of_head 'd' hhead (by decide) (by decide)
              have hbs : strStarts line "\\" = false :=
                strStarts_false_of_head 'd' hhead (by decide) (by decide)
              have hne2 : ¬ line = "" := by
                intro he
                rw [he] at hhead
                exact nomatch hhead
              rw [if_neg (neTrue hm), if_neg (neTrue hp2),
                if_neg (fun hor => hor.elim (neTrue hsp) hne2), if_neg (neTrue hbs),
                if_pos h4, if_pos h4]
              exact ⟨rfl, stateRel_outside _ _ hf _ _⟩
            · rw [if_neg h4, if_neg h4,
                if_pos (⟨hsin, hs3⟩ : s.inside = true ∧ ¬ s.file = "")]
              by_cases hm : strStarts line "-" = true
              · rw [if_pos hm, if_pos hm]
                exact ⟨rfl, hf, hhf, hrel⟩
              · rw [if_neg hm, if_neg hm]
                by_cases hpl : strStarts line "+" = true
                · have hhead : line.data.head? = some '+' :=
                    (strStarts_head hpl (by decide)).trans (by decide)
                  have hbs : strStarts line "\\" = false :=
                    strStarts_false_of_head '+' hhead (by decide) (by decide)
                  rw [if_pos hpl, if_neg (neTrue hbs), if_pos (Or.inl hpl)]
                  refine ⟨by rw [hf, hcur], hf, fun _ => h3,
                    fun _ => ⟨hrel'.1, fun _ => by rw [hcur]⟩⟩
                · rw [if_neg hpl]
                  by_cases hspb : strStarts line " " = true ∨ line = ""
                  · have hbs : strStarts line "\\" = false := by
                      rcases hspb with hsp' | hsp'
                      · exact strStarts_false_of_head ' '
                          ((strStarts_head hsp' (by decide)).trans (by decide))
                          (by decide) (by decide)
                      · rw [hsp']
                        exact strStarts_empty "\\" (by decide)
                    rw [if_pos hspb, if_neg (neTrue hbs), if_pos (Or.inr hspb)]
                    refine ⟨by rw [hf, hcur], hf, fun _ => h3,
                      fun _ => ⟨hrel'.1, fun _ => by rw [hcur]⟩⟩
                  · rw [if_neg hspb]
                    by_cases hbs : strStarts line "\\" = true
                    · rw [if_pos hbs, if_pos hbs]
                      exact ⟨rfl, hf, hhf, hrel⟩
                    · rw [if_neg hbs, if_neg hbs,
                        if_neg (fun hor => hor.elim (fun hx => hpl hx)
                          (fun hor2 => hor2.elim (fun hx => hspb (Or.inl hx))
                            (fun hx => hspb (Or.inr hx))))]
                      exact ⟨rfl, hf, hhf, hrel⟩
          · have h5' : p.inHunk = false := by
              cases hb : p.inHunk
              · rfl
              · exact absurd hb h5
            have hsin : s.inside = false := by rw [← hrel'.1, h5']
            rw [if_pos (Or.inl h5)]
            by_cases h4 : strStarts line "diff --git" = true
            · rw [if_pos h4]
              exact ⟨rfl, hf, hhf, fun hne => ⟨by rw [h5'], fun hcon => absurd hcon h5⟩⟩
            · rw [if_neg h4,
                if_neg (fun hand => absurd hand.1 (neTrue hsin))]
              exact ⟨rfl, hf, hhf, hrel⟩

theorem pdlLoop_lmWalk (lines : List String) :
    ∀ (p : PDLState) (s : LMState) (acc : List (String × Nat)), StateRel p s →
      pdlLoop lines p acc = acc ++ lmWalk lines s := by
  induction lines with
  | nil =>
    intro p s acc _
    simp [pdlLoop, lmWalk]
  | cons line rest ih =>
    intro p s acc h
    obtain ⟨he, hrel⟩ := pdlStep_lmStep line p s h
    rw [show pdlLoop (line :: rest) p acc =
      pdlLoop rest (pdlStep p line).1 (acc ++ (pdlStep p line).2) from rfl]
    rw [show lmWalk (line :: rest) s =
      (lmStep s line).2 ++ lmWalk rest (lmStep s line).1 from rfl]
    rw [ih (pdlStep p line).1 (lmStep s line).1 (acc ++ (pdlStep p line).2) hrel, he,
      List.append_assoc]

/-- C1: `IsValidCommentLine` on the map built by `ParseDiffLines` is
true exactly for the `(path, new-file line)` pairs of added and context
lines inside hunks of `+++ b/path` file sections as characterized by the
specification's state machine; in particular it is false for deleted
lines, unknown paths, and every line of a `+++ /dev/null` section, since
the machine marks none of those. -/
theorem c1_valid_comment_lines (d : String) (path : String) (n : Nat) :
    IsValidCommentLine (ParseDiffLines d) path n = true ↔
      (path, n) ∈ SpecCommentable d := by
  have hb : ParseDiffLines d = SpecCommentable d := by
    rw [ParseDiffLines, SpecCommentable]
    rw [pdlLoop_lmWalk (splitLines d) ⟨"", 0, false⟩ ⟨"", false, 0⟩ []
      (stateRel_outside "" "" rfl 0 0)]
    rw [List.nil_append]
  rw [hb, IsValidCommentLine]
  exact decide_eq_true_iff

end ShipItAI
